import Mathlib

/-!
Verification of the ordinal coordinate-mapping engine of
`src/ts/Core/Axis/OrdinalAxis.ts`.

JavaScript numbers are modelled by `ℚ` (the claims under study concern exact
arithmetic); arrays by `List ℚ` with `List.getD` for indexing, where the
out-of-range default `0` stands for accesses the control flow never performs
(JavaScript would yield `undefined` there).  Values that may be `undefined`
in the source (`ordinal.positions`, `ordinal.slope`) are modelled by
`Option`.  The extended ordinal positions (`ordinal.getExtendedPositions()`,
a collaborator built from grouped full-dataset series data) enter the
translated functions as an explicit parameter, the empty list standing for
an unavailable or empty cache.
-/

namespace OrdinalAxis

/-- Midpoint used by the binary search: `Math.ceil((start + end) / 2)`.
Written as the integer ceiling division `(start + end + 1) / 2` so that the
definition is kernel-computable; `searchMiddle_ceil` proves it equal to the
source's ceiling of the exact midpoint. -/
def searchMiddle (start e : ℤ) : ℤ :=
  (start + e + 1) / 2

/-- The `while (start < end)` loop of `Additions.findIndexOf`
(`OrdinalAxis.ts` lines 1176-1187): halve the `[start, end]` window,
moving `start` up to the midpoint when the midpoint element is `≤ key`,
else moving `end` below the midpoint.  Returns the final `start`.
The `fuel` argument is the loop variant `end - start`, which every
iteration strictly decreases; `findLoop` below passes its exact initial
value, so the zero-fuel base case is reached only with the loop guard
already false and never cuts the loop short (`findLoopGo_fuel_irrel`). -/
def findLoopGo (sortedArray : List ℚ) (key : ℚ) : ℕ → ℤ → ℤ → ℤ
  | 0, start, _ => start
  | fuel + 1, start, e =>
    if start < e then
      let middle := searchMiddle start e
      if sortedArray.getD middle.toNat 0 ≤ key then
        findLoopGo sortedArray key fuel middle e
      else
        findLoopGo sortedArray key fuel start (middle - 1)
    else
      start

/-- The loop of `Additions.findIndexOf` entered at window `[start, e]`. -/
def findLoop (sortedArray : List ℚ) (key : ℚ) (start e : ℤ) : ℤ :=
  findLoopGo sortedArray key (e - start).toNat start e

/-- `Additions.findIndexOf` (`OrdinalAxis.ts` lines 1167-1193).  After the
loop, `sortedArray[start] === key` returns `start`; otherwise `-1` unless
`indirectSearch`.  The in-bounds conjunct encodes that in JavaScript an
out-of-range access yields `undefined`, which is `===` to no number. -/
def findIndexOf (sortedArray : List ℚ) (key : ℚ) (indirectSearch : Bool) : ℤ :=
  let start := findLoop sortedArray key 0 ((sortedArray.length : ℤ) - 1)
  if start.toNat < sortedArray.length ∧ sortedArray.getD start.toNat 0 = key then
    start
  else if indirectSearch then start else -1

/-- `getIndexInArray` (`OrdinalAxis.ts` lines 491-501): precise, possibly
fractional index of `val` in `ordinalPositions`.  The indirect binary search
gives the floor index; an exact hit returns it, otherwise the fractional
part interpolates linearly between the floor element and its successor. -/
def getIndexInArray (ordinalPositions : List ℚ) (val : ℚ) : ℚ :=
  let index := (findIndexOf ordinalPositions val true).toNat
  if ordinalPositions.getD index 0 = val then
    (index : ℚ)
  else
    let percent :=
      (val - ordinalPositions.getD index 0) /
        (ordinalPositions.getD (index + 1) 0 - ordinalPositions.getD index 0)
    (index : ℚ) + percent

/-- Final line of `val2lin` (`OrdinalAxis.ts` line 864):
`toIndex ? ordinalIndex : slope * (ordinalIndex || 0) + offset`.
When `ordinal.slope` or `ordinal.offset` is undefined and `toIndex` is
false, the JavaScript expression produces `NaN`; that corner is modelled by
the defaults `0` and is exercised by none of the claims, which all concern
`toIndex = true` or the early identity returns. -/
def val2linReturn (toIndex : Bool) (slope : Option ℚ) (ordinalIndex : ℚ)
    (offset : Option ℚ) : ℚ :=
  if toIndex then ordinalIndex else slope.getD 0 * ordinalIndex + offset.getD 0

/-- `val2lin` (`OrdinalAxis.ts` lines 769-866).  `positions` is
`ordinal.positions` (undefined for an equally spaced axis), `slope` and
`offset` are `ordinal.slope` / `ordinal.offset`, and `extended` is the
value of the `ordinal.getExtendedPositions()` collaborator call, the empty
list standing for an unavailable or empty extended cache (the source guard
`extendedOrdinalPositions && extendedOrdinalPositions.length`).  The guard
`0 < P.length` of the visible-range test encodes that for an empty array
`ordinalPositions[0]` is `undefined` and the comparison is false. -/
def val2lin (positions : Option (List ℚ)) (slope : Option ℚ) (offset : Option ℚ)
    (extended : List ℚ) (val : ℚ) (toIndex : Bool) : ℚ :=
  match positions with
  | none => val
  | some ordinalPositions =>
    let ordinalLength := ordinalPositions.length
    if 0 < ordinalLength ∧ ordinalPositions.getD 0 0 ≤ val ∧
        ordinalPositions.getD (ordinalLength - 1) 0 ≥ val then
      -- The searched value is inside the visible plot area.
      val2linReturn toIndex slope (getIndexInArray ordinalPositions val) offset
    else if extended.length = 0 then
      val
    else
      let length := extended.length
      -- `if (!slope) slope = ...`: an undefined or zero slope is replaced
      -- by the average spacing of the extended set.
      let slope' : ℚ :=
        match slope with
        | some s => if s = 0 then
            (extended.getD (length - 1) 0 - extended.getD 0 0) / length
          else s
        | none => (extended.getD (length - 1) 0 - extended.getD 0 0) / length
      let originalPositionsReference :=
        getIndexInArray extended (ordinalPositions.getD 0 0)
      if extended.getD 0 0 ≤ val ∧ val ≤ extended.getD (length - 1) 0 then
        val2linReturn toIndex (some slope')
          (getIndexInArray extended val - originalPositionsReference) offset
      else if toIndex = false then
        -- Outside the extended positions too: return the initial value.
        val
      else if val < extended.getD 0 0 then
        let diff := extended.getD 0 0 - val
        let approximateIndexOffset := diff / slope'
        val2linReturn toIndex (some slope')
          (-originalPositionsReference - approximateIndexOffset) offset
      else
        let diff := val - extended.getD (length - 1) 0
        let approximateIndexOffset := diff / slope'
        val2linReturn toIndex (some slope')
          (approximateIndexOffset + length - originalPositionsReference) offset

/-- `index2val` (`OrdinalAxis.ts` lines 408-441): map a possibly fractional
ordinal index back to an axis value.  An undefined `ordinal.positions`
returns the index unchanged; out-of-range indices clamp to the first/last
position (the `distance` variable stays undefined there, so the final
interpolation is skipped and the reassigned `index` is returned). -/
def index2val (positions : Option (List ℚ)) (index : ℚ) : ℚ :=
  match positions with
  | none => index
  | some ordinalPositions =>
    let i : ℤ := (ordinalPositions.length : ℤ) - 1
    if index < 0 then
      -- Out of range, in effect panning to the left.
      ordinalPositions.getD 0 0
    else if index > (i : ℚ) then
      -- Out of range, panning to the right.
      ordinalPositions.getD i.toNat 0
    else
      let ifloor : ℤ := Int.floor index
      let distance := index - (ifloor : ℚ)
      if ifloor.toNat < ordinalPositions.length then
        ordinalPositions.getD ifloor.toNat 0 +
          (if distance ≠ 0 then
            distance * (ordinalPositions.getD (ifloor.toNat + 1) 0 -
              ordinalPositions.getD ifloor.toNat 0)
          else 0)
      else index

/-- Segment scan of `getTimeTicks` (`OrdinalAxis.ts` lines 230-283),
as the list of `(start, end)` index ranges into `positions` that the loop
identifies: `outsideMax` is `end && positions[end - 1] > max`, a position
below `min` moves the segment start up, and a segment closes at the last
index, at a gap larger than `closestDistance * 5`, or when `outsideMax`
(after which the loop breaks).  Tick generation for each segment is
delegated to the external time collaborator and is not part of this model;
the claim under study concerns where the split points fall. -/
def segLoopGo (positions : List ℚ) (mn mx closestDistance : ℚ) :
    ℕ → ℕ → ℕ → List (ℕ × ℕ)
  | 0, _, _ => []
  | fuel + 1, en, start =>
    if en < positions.length then
      let outsideMax := en ≠ 0 ∧ positions.getD (en - 1) 0 > mx
      let start1 := if positions.getD en 0 < mn then en else start
      if en = positions.length - 1 ∨
          positions.getD (en + 1) 0 - positions.getD en 0 > closestDistance * 5 ∨
          outsideMax then
        if outsideMax then
          [(start1, en)] -- The `break` ends the scan after this segment.
        else
          (start1, en) :: segLoopGo positions mn mx closestDistance fuel (en + 1) (en + 1)
      else
        segLoopGo positions mn mx closestDistance fuel (en + 1) start1
    else []

/-- The segment scan entered at index `en` with current segment start
`start`.  The fuel `positions.length - en` is the number of remaining loop
iterations; it reaches zero only together with the loop condition
`en < positions.length` failing, so it never cuts the scan short. -/
def segLoop (positions : List ℚ) (mn mx closestDistance : ℚ)
    (en start : ℕ) : List (ℕ × ℕ) :=
  segLoopGo positions mn mx closestDistance (positions.length - en) en start

/-- Splitting of the positions purely at gaps exceeding five times the
closest distance, written after the specification's words ("scan
`positions` once, splitting into segments wherever the gap to the next
position exceeds `5 × closestDistance`"); compared with `segLoop`, the
scan translated from the source. -/
def gapSplitSegmentsGo (positions : List ℚ) (closestDistance : ℚ) :
    ℕ → ℕ → ℕ → List (ℕ × ℕ)
  | 0, _, _ => []
  | fuel + 1, en, start =>
    if en < positions.length then
      if en = positions.length - 1 ∨
          positions.getD (en + 1) 0 - positions.getD en 0 > closestDistance * 5 then
        (start, en) :: gapSplitSegmentsGo positions closestDistance fuel (en + 1) (en + 1)
      else
        gapSplitSegmentsGo positions closestDistance fuel (en + 1) start
    else []

/-- The gap-only split entered at index `en`, fuel as in `segLoop`. -/
def gapSplitSegments (positions : List ℚ) (closestDistance : ℚ)
    (en start : ℕ) : List (ℕ × ℕ) :=
  gapSplitSegmentsGo positions closestDistance (positions.length - en) en start

/-- Overscroll specification: `convertOverscroll` receives a number, a
string ending in `%`, a string containing `px` (`parseInt` reads the
integer prefix in both cases), or some other string. -/
inductive OverscrollValue where
  | num (x : ℚ)
  | pct (n : ℤ)
  | px (n : ℤ)
  | invalidStr
deriving DecidableEq

/-- The inner `calculateOverscroll` closure of `Additions.convertOverscroll`
(`OrdinalAxis.ts` lines 1555-1565): multiply the percentage by the cached
original ordinal range when known, else by `dataMax - dataMin` when both
are defined, else by `0` (the `pick` call). -/
def calculateOverscroll (originalOrdinalRange : Option ℚ)
    (dataMin dataMax : Option ℚ) (overscrollPercentage : ℚ) : ℚ :=
  (originalOrdinalRange.getD
    (match dataMax, dataMin with
      | some dMax, some dMin => dMax - dMin
      | _, _ => 0)) * overscrollPercentage

/-- `Additions.convertOverscroll` (`OrdinalAxis.ts` lines 1552-1596):
resolve a numeric overscroll directly, a percentage through
`calculateOverscroll`, a pixel value by limiting it to 90% of the axis
length and converting `pixelToPercent / (1 - pixelToPercent)` through the
percentage formula, and any other string to `0`. -/
def convertOverscroll (originalOrdinalRange : Option ℚ)
    (dataMin dataMax : Option ℚ) (len : ℚ) (overscroll : OverscrollValue) : ℚ :=
  match overscroll with
  | .num x => x
  | .pct n => calculateOverscroll originalOrdinalRange dataMin dataMax ((n : ℚ) / 100)
  | .px n =>
      let limitedOverscrollValue := min (n : ℚ) (len * (9 / 10))
      let pixelToPercent := limitedOverscrollValue / len
      calculateOverscroll originalOrdinalRange dataMin dataMax
        (pixelToPercent / (1 - pixelToPercent))
  | .invalidStr => 0

/-- The `while` loop of `Additions.getOverscrollPositions`
(`OrdinalAxis.ts` lines 1499-1504): starting from `dataMax`, keep adding
`distance` and appending the result while the running value has not yet
passed `dataMax + extraRange` (`bound`).  The source loop does not
terminate for a nonpositive distance, so the model carries the positivity
hypothesis used by the termination measure. -/
def overscrollLoopGo (bound distance : ℚ) : ℕ → ℚ → List ℚ
  | 0, _ => []
  | fuel + 1, mx =>
    if mx ≤ bound then
      (mx + distance) :: overscrollLoopGo bound distance fuel (mx + distance)
    else []

/-- The overscroll `while` loop entered at running value `mx`.  For a
positive distance the variant `⌊(bound - mx) / distance⌋ + 1` decreases by
exactly one per iteration and is nonpositive exactly when the loop guard
fails, so the fuel never cuts the loop short (`overscrollLoop_step`). -/
def overscrollLoop (bound distance : ℚ) (mx : ℚ) : List ℚ :=
  overscrollLoopGo bound distance (Int.floor ((bound - mx) / distance) + 1).toNat mx

/-- `Additions.getOverscrollPositions` (`OrdinalAxis.ts` lines 1485-1509):
synthetic evenly spaced positions past `dataMax`.  `extraRange` is the
resolved overscroll and `distance` is `ordinal.overscrollPointsRange`
(`none` when undefined, in which case no positions are generated).  The
source `while` loop does not terminate for a nonpositive defined distance
together with a nonnegative overscroll, so the model guards on `0 < d`;
the claims under study assume a positive distance. -/
def getOverscrollPositions (dataMax extraRange : ℚ) (distance : Option ℚ) : List ℚ :=
  match distance with
  | some d =>
      if 0 < d then overscrollLoop (dataMax + extraRange) d dataMax
      else []
  | none => []

/-- Axis extremes as read by the pan handler via `axis.getExtremes()`. -/
structure PanExtremes where
  min : ℚ
  max : ℚ
  dataMin : ℚ
  dataMax : ℚ
deriving DecidableEq

/-- The ordinal branch of `onChartPan` (`OrdinalAxis.ts` lines 624-741),
as its effect on the x-axis extremes `(min, max)`.  The model enters at the
point where the surrounding guard (x-capable panning, ordinal option, at
least one series, at most one touch) has passed.  `movedUnits` is the
rounded pixel delta in ordinal units; `hasExtendedPositions` is the
truthiness of `extendedAxis.ordinal.positions`; `(trimmedMin, trimmedMax)`
is the range the `navigatorAxis.toFixedRange` collaborator computes from
the moved index range (the would-be new extremes); `panningTypeHasY`
records whether `/y/.test(panning.type)` holds (type `xy`).  A rejected or
skipped pan still falls through to the closing block, which for a y-capable
panning type (or for the `runBase` fallback) resets `max` to
`dataMax + overscroll` whenever `overscroll` is nonzero. -/
def onChartPanOrdinal (ex : PanExtremes) (overscroll : ℚ) (movedUnits : ℤ)
    (panningTypeHasY : Bool) (hasExtendedPositions : Bool)
    (trimmedMin trimmedMax : ℚ) : ℚ × ℚ :=
  -- Make sure panning to the edges does not decrease the zoomed range.
  if (ex.min ≤ ex.dataMin ∧ movedUnits < 0) ∨
      (ex.max + overscroll ≥ ex.dataMax ∧ movedUnits > 0) then
    (ex.min, ex.max)
  else if ¬hasExtendedPositions then
    -- `runBase = true`: revert to the linear `chart.pan`, which resets the
    -- maximum for a nonzero overscroll.
    if overscroll ≠ 0 then (ex.min, ex.dataMax + overscroll) else (ex.min, ex.max)
  else
    let afterSetExtremes : ℚ × ℚ :=
      if 1 < |movedUnits| then
        -- Apply the trimmed range if it is within the available data range.
        if trimmedMin ≥ min ex.dataMin ex.min ∧
            trimmedMax ≤ max ex.dataMax ex.max + overscroll then
          (trimmedMin, trimmedMax)
        else (ex.min, ex.max)
      else (ex.min, ex.max)
    -- Closing block: `runBase` is false here, but a panning type containing
    -- `y` still resets the maximum when overscroll is nonzero.
    if panningTypeHasY ∧ overscroll ≠ 0 then
      (afterSetExtremes.1, ex.dataMax + overscroll)
    else afterSetExtremes

/-! ## Theorems -/

/-- `searchMiddle` is `Math.ceil((start + end) / 2)` on exact arithmetic. -/
theorem searchMiddle_ceil (start e : ℤ) :
    searchMiddle start e = Int.ceil (((start : ℚ) + (e : ℚ)) / 2) := by
  unfold searchMiddle
  symm
  rw [Int.ceil_eq_iff]
  constructor
  · rw [lt_div_iff₀ (by norm_num : (0 : ℚ) < 2)]
    have : ((start + e + 1) / 2 - 1) * 2 < start + e := by omega
    exact_mod_cast this
  · rw [div_le_iff₀ (by norm_num : (0 : ℚ) < 2)]
    have : start + e ≤ (start + e + 1) / 2 * 2 := by omega
    exact_mod_cast this

theorem searchMiddle_gt (start e : ℤ) (h : start < e) : start < searchMiddle start e := by
  rw [searchMiddle_ceil, Int.lt_ceil]
  have : (start : ℚ) < e := by exact_mod_cast h
  linarith

theorem searchMiddle_le (start e : ℤ) (h : start < e) : searchMiddle start e ≤ e := by
  rw [searchMiddle_ceil, Int.ceil_le]
  have : (start : ℚ) < e := by exact_mod_cast h
  linarith

/-- Any fuel at least the window size gives the same result: the fuel
presentation computes exactly the source's `while` loop. -/
theorem findLoopGo_fuel_irrel (sortedArray : List ℚ) (key : ℚ) :
    ∀ fuel fuel' (start e : ℤ), (e - start).toNat ≤ fuel →
      (e - start).toNat ≤ fuel' →
      findLoopGo sortedArray key fuel start e =
        findLoopGo sortedArray key fuel' start e := by
  intro fuel
  induction fuel with
  | zero =>
    intro fuel' start e hf _
    have hlt : ¬start < e := by omega
    cases fuel' with
    | zero => rfl
    | succ m => simp only [findLoopGo, if_neg hlt]
  | succ n ih =>
    intro fuel' start e hf hf'
    by_cases hlt : start < e
    · have h1 := searchMiddle_gt start e hlt
      have h2 := searchMiddle_le start e hlt
      cases fuel' with
      | zero => omega
      | succ m =>
        simp only [findLoopGo, if_pos hlt]
        by_cases hmid : sortedArray.getD (searchMiddle start e).toNat 0 ≤ key
        · simp only [if_pos hmid]
          exact ih m (searchMiddle start e) e (by omega) (by omega)
        · simp only [if_neg hmid]
          exact ih m start (searchMiddle start e - 1) (by omega) (by omega)
    · cases fuel' with
      | zero => simp only [findLoopGo, if_neg hlt]
      | succ m => simp only [findLoopGo, if_neg hlt]

/-- Elements of a strictly ascending list, read through `getD`, are
strictly monotone in the index (for in-range indices). -/
theorem getD_lt_getD (A : List ℚ) (hA : A.Pairwise (· < ·)) {i j : ℕ}
    (hij : i < j) (hj : j < A.length) : A.getD i 0 < A.getD j 0 := by
  have hi : i < A.length := lt_trans hij hj
  rw [A.getD_eq_getElem 0 hi, A.getD_eq_getElem 0 hj]
  exact List.pairwise_iff_getElem.mp hA i j hi hj hij

theorem getD_le_getD (A : List ℚ) (hA : A.Pairwise (· < ·)) {i j : ℕ}
    (hij : i ≤ j) (hj : j < A.length) : A.getD i 0 ≤ A.getD j 0 := by
  rcases lt_or_eq_of_le hij with h | h
  · exact le_of_lt (getD_lt_getD A hA h hj)
  · rw [h]

/-- Invariant proof for the binary-search loop: started on a window
`[s, e]` whose left element is `≤ key` and with every element right of `e`
greater than `key`, the loop lands on the greatest index whose element is
`≤ key`. -/
theorem findLoopGo_correct (A : List ℚ) (k : ℚ) (hA : A.Pairwise (· < ·)) :
    ∀ fuel (s e : ℤ), (e - s).toNat ≤ fuel → 0 ≤ s → s ≤ e →
      e < (A.length : ℤ) → A.getD s.toNat 0 ≤ k →
      (∀ j : ℕ, e < (j : ℤ) → j < A.length → k < A.getD j 0) →
      s ≤ findLoopGo A k fuel s e ∧ findLoopGo A k fuel s e ≤ e ∧
        A.getD (findLoopGo A k fuel s e).toNat 0 ≤ k ∧
        (∀ j : ℕ, j < A.length → A.getD j 0 ≤ k →
          (j : ℤ) ≤ findLoopGo A k fuel s e) := by
  intro fuel
  induction fuel with
  | zero =>
    intro s e hf hs hse hlen hleft hright
    have hes : e = s := by omega
    simp only [findLoopGo]
    refine ⟨le_refl s, by omega, hleft, ?_⟩
    intro j hj hjk
    by_contra hcon
    exact absurd hjk (not_le.mpr (hright j (by omega) hj))
  | succ n ih =>
    intro s e hf hs hse hlen hleft hright
    by_cases hlt : s < e
    · have hm1 := searchMiddle_gt s e hlt
      have hm2 := searchMiddle_le s e hlt
      simp only [findLoopGo, if_pos hlt]
      by_cases hmid : A.getD (searchMiddle s e).toNat 0 ≤ k
      · simp only [if_pos hmid]
        have h := ih (searchMiddle s e) e (by omega) (by omega) (by omega)
          hlen hmid hright
        exact ⟨by omega, h.2.1, h.2.2.1, h.2.2.2⟩
      · simp only [if_neg hmid]
        have hmlen : (searchMiddle s e).toNat < A.length := by omega
        have hright' : ∀ j : ℕ, searchMiddle s e - 1 < (j : ℤ) →
            j < A.length → k < A.getD j 0 := by
          intro j hj hjlen
          have hmj : (searchMiddle s e).toNat ≤ j := by omega
          calc k < A.getD (searchMiddle s e).toNat 0 := not_le.mp hmid
            _ ≤ A.getD j 0 := getD_le_getD A hA hmj hjlen
        have h := ih s (searchMiddle s e - 1) (by omega) hs (by omega)
          (by omega) hleft hright'
        exact ⟨h.1, by omega, h.2.2.1, h.2.2.2⟩
    · have hes : e = s := by omega
      simp only [findLoopGo, if_neg hlt]
      refine ⟨le_refl s, by omega, hleft, ?_⟩
      intro j hj hjk
      by_contra hcon
      exact absurd hjk (not_le.mpr (hright j (by omega) hj))

/-- Correctness of `findIndexOf` in indirect mode when some element is
`≤ key`: the result is the greatest in-range index whose element is
`≤ key` (and it is in range). -/
theorem findIndexOf_indirect (A : List ℚ) (k : ℚ) (hA : A.Pairwise (· < ·))
    (hne : A ≠ []) (h0 : A.getD 0 0 ≤ k) :
    0 ≤ findIndexOf A k true ∧
      (findIndexOf A k true).toNat < A.length ∧
      A.getD (findIndexOf A k true).toNat 0 ≤ k ∧
      (∀ j : ℕ, j < A.length → A.getD j 0 ≤ k →
        (j : ℤ) ≤ findIndexOf A k true) := by
  have hlen : 0 < A.length := List.length_pos.mpr hne
  have h := findLoopGo_correct A k hA (((A.length : ℤ) - 1) - 0).toNat 0
    ((A.length : ℤ) - 1) (le_refl _) (le_refl 0) (by omega) (by omega) h0
    (by intro j hj hjlen; omega)
  unfold findIndexOf findLoop
  set r := findLoopGo A k (((A.length : ℤ) - 1) - 0).toNat 0 ((A.length : ℤ) - 1) with hr
  by_cases hguard : r.toNat < A.length ∧ A.getD r.toNat 0 = k
  · rw [if_pos hguard]
    exact ⟨h.1, by omega, h.2.2.1, h.2.2.2⟩
  · rw [if_neg hguard, if_pos rfl]
    exact ⟨h.1, by omega, h.2.2.1, h.2.2.2⟩

/-- In direct mode (`indirectSearch = false`), a key that occurs nowhere in
the array yields `-1`, for any array. -/
theorem findIndexOf_direct_notMem (A : List ℚ) (k : ℚ) (hk : k ∉ A) :
    findIndexOf A k false = -1 := by
  unfold findIndexOf findLoop
  set r := findLoopGo A k (((A.length : ℤ) - 1) - 0).toNat 0 ((A.length : ℤ) - 1)
  have hguard : ¬(r.toNat < A.length ∧ A.getD r.toNat 0 = k) := by
    rintro ⟨hlt, heq⟩
    apply hk
    rw [A.getD_eq_getElem 0 hlt] at heq
    rw [← heq]
    exact A.getElem_mem hlt
  rw [if_neg hguard]
  rfl

/-- On a strictly ascending list, an exact member is found by
`findIndexOf` in indirect mode at its (unique) index. -/
theorem findIndexOf_indirect_mem (A : List ℚ) (v : ℚ) (hA : A.Pairwise (· < ·))
    (hv : v ∈ A) : findIndexOf A v true = (A.indexOf v : ℤ) := by
  have hne : A ≠ [] := List.ne_nil_of_mem hv
  have hi0 : A.indexOf v < A.length := List.indexOf_lt_length.mpr hv
  have hval : A.getD (A.indexOf v) 0 = v := by
    rw [A.getD_eq_getElem 0 hi0]
    exact List.getElem_indexOf hi0
  have h0 : A.getD 0 0 ≤ v := by
    calc A.getD 0 0 ≤ A.getD (A.indexOf v) 0 :=
          getD_le_getD A hA (Nat.zero_le _) hi0
      _ = v := hval
  obtain ⟨hr0, hrlen, hrle, hrgr⟩ := findIndexOf_indirect A v hA hne h0
  have hge : (A.indexOf v : ℤ) ≤ findIndexOf A v true :=
    hrgr (A.indexOf v) hi0 (le_of_eq hval)
  have hle : findIndexOf A v true ≤ (A.indexOf v : ℤ) := by
    by_contra hcon
    have hlt : A.indexOf v < (findIndexOf A v true).toNat := by omega
    have := getD_lt_getD A hA hlt hrlen
    rw [hval] at this
    exact absurd hrle (not_le.mpr this)
  omega

/-- On a strictly ascending list, an exact member gets its exact integer
index from `getIndexInArray`. -/
theorem getIndexInArray_mem (A : List ℚ) (v : ℚ) (hA : A.Pairwise (· < ·))
    (hv : v ∈ A) : getIndexInArray A v = (A.indexOf v : ℚ) := by
  have hi0 : A.indexOf v < A.length := List.indexOf_lt_length.mpr hv
  have hval : A.getD (A.indexOf v) 0 = v := by
    rw [A.getD_eq_getElem 0 hi0]
    exact List.getElem_indexOf hi0
  unfold getIndexInArray
  rw [findIndexOf_indirect_mem A v hA hv]
  simp only [Int.toNat_natCast]
  rw [if_pos hval]

/-- For a value strictly between two consecutive elements of a strictly
ascending list, `findIndexOf` in indirect mode lands on the left
neighbour, and `getIndexInArray` interpolates the fractional index. -/
theorem getIndexInArray_between (A : List ℚ) (v : ℚ) (i : ℕ)
    (hA : A.Pairwise (· < ·)) (hi : i + 1 < A.length)
    (hlow : A.getD i 0 < v) (hhigh : v < A.getD (i + 1) 0) :
    findIndexOf A v true = (i : ℤ) ∧
      getIndexInArray A v =
        (i : ℚ) + (v - A.getD i 0) / (A.getD (i + 1) 0 - A.getD i 0) := by
  have hne : A ≠ [] := by
    intro h
    rw [h] at hi
    simp at hi
  have h0 : A.getD 0 0 ≤ v :=
    le_of_lt (lt_of_le_of_lt (getD_le_getD A hA (Nat.zero_le i) (by omega)) hlow)
  obtain ⟨hr0, hrlen, hrle, hrgr⟩ := findIndexOf_indirect A v hA hne h0
  have hge : (i : ℤ) ≤ findIndexOf A v true := hrgr i (by omega) (le_of_lt hlow)
  have hle : findIndexOf A v true ≤ (i : ℤ) := by
    by_contra hcon
    have hlt : i + 1 ≤ (findIndexOf A v true).toNat := by omega
    have : A.getD (i + 1) 0 ≤ A.getD (findIndexOf A v true).toNat 0 :=
      getD_le_getD A hA hlt hrlen
    have : v < A.getD (findIndexOf A v true).toNat 0 := lt_of_lt_of_le hhigh this
    exact absurd hrle (not_le.mpr this)
  have hfi : findIndexOf A v true = (i : ℤ) := le_antisymm hle hge
  refine ⟨hfi, ?_⟩
  unfold getIndexInArray
  rw [hfi]
  simp only [Int.toNat_natCast]
  rw [if_neg (by exact ne_of_lt hlow)]

/-- When every element of the array exceeds the key, the binary-search
loop never moves `start` up from `0`. -/
theorem findLoopGo_all_gt (A : List ℚ) (k : ℚ)
    (hgt : ∀ j : ℕ, j < A.length → k < A.getD j 0) :
    ∀ fuel (e : ℤ), e < (A.length : ℤ) → findLoopGo A k fuel 0 e = 0 := by
  intro fuel
  induction fuel with
  | zero => intro e _; rfl
  | succ n ih =>
    intro e hlen
    by_cases hlt : (0 : ℤ) < e
    · have hm1 := searchMiddle_gt 0 e hlt
      have hm2 := searchMiddle_le 0 e hlt
      have hmlen : (searchMiddle 0 e).toNat < A.length := by omega
      have hmid : ¬A.getD (searchMiddle 0 e).toNat 0 ≤ k :=
        not_le.mpr (hgt _ hmlen)
      simp only [findLoopGo, if_pos hlt, if_neg hmid]
      exact ih (searchMiddle 0 e - 1) (by omega)
    · simp only [findLoopGo, if_neg hlt]

/-- Left edge of `findIndexOf`: a key below every element returns index
`0` in indirect mode and `-1` in direct mode. -/
theorem findIndexOf_below (A : List ℚ) (k : ℚ) (hA : A.Pairwise (· < ·))
    (hne : A ≠ []) (hk : k < A.getD 0 0) :
    findIndexOf A k true = 0 ∧ findIndexOf A k false = -1 := by
  have hlen : 0 < A.length := List.length_pos.mpr hne
  have hgt : ∀ j : ℕ, j < A.length → k < A.getD j 0 := by
    intro j hj
    exact lt_of_lt_of_le hk (getD_le_getD A hA (Nat.zero_le j) hj)
  have hloop : ∀ e : ℤ, e < (A.length : ℤ) → findLoop A k 0 e = 0 := by
    intro e he
    exact findLoopGo_all_gt A k hgt _ e he
  have hnotmem : k ∉ A := by
    intro hmem
    have hi : A.indexOf k < A.length := List.indexOf_lt_length.mpr hmem
    have : k < A.getD (A.indexOf k) 0 := hgt _ hi
    rw [A.getD_eq_getElem 0 hi, List.getElem_indexOf hi] at this
    exact lt_irrefl k this
  refine ⟨?_, findIndexOf_direct_notMem A k hnotmem⟩
  unfold findIndexOf
  rw [show findLoop A k 0 ((A.length : ℤ) - 1) = 0 from hloop _ (by omega)]
  rw [if_neg]
  · rfl
  · rintro ⟨-, heq⟩
    rw [Int.toNat_zero] at heq
    exact absurd heq (ne_of_gt hk)

/-- When the searched value lies within the visible ordinal positions and
the index is requested, `val2lin` reduces to `getIndexInArray` on the
visible positions (extended positions, slope and offset are not read). -/
theorem val2lin_inside_eq (P : List ℚ) (slope offset : Option ℚ)
    (extended : List ℚ) (v : ℚ) (h1 : 0 < P.length) (h2 : P.getD 0 0 ≤ v)
    (h3 : P.getD (P.length - 1) 0 ≥ v) :
    val2lin (some P) slope offset extended v true = getIndexInArray P v := by
  simp only [val2lin]
  rw [if_pos ⟨h1, h2, h3⟩]
  simp [val2linReturn]

/-- The fuel of `overscrollLoop` is exact: one unfolding of the loop. -/
theorem overscrollLoop_step (bound distance : ℚ) (hd : 0 < distance) (mx : ℚ) :
    overscrollLoop bound distance mx =
      if mx ≤ bound then
        (mx + distance) :: overscrollLoop bound distance (mx + distance)
      else [] := by
  unfold overscrollLoop
  by_cases h : mx ≤ bound
  · have h0 : (0 : ℚ) ≤ (bound - mx) / distance :=
      div_nonneg (by linarith) (le_of_lt hd)
    have hge : (0 : ℤ) ≤ Int.floor ((bound - mx) / distance) := Int.floor_nonneg.mpr h0
    have hstep : (bound - (mx + distance)) / distance = (bound - mx) / distance - 1 := by
      field_simp
      ring
    have hfl : Int.floor ((bound - (mx + distance)) / distance) =
        Int.floor ((bound - mx) / distance) - 1 := by
      rw [hstep, Int.floor_sub_one]
    have hfuel : (Int.floor ((bound - mx) / distance) + 1).toNat =
        (Int.floor ((bound - (mx + distance)) / distance) + 1).toNat + 1 := by
      omega
    rw [hfuel]
    simp only [overscrollLoopGo, if_pos h]
  · have hneg : (bound - mx) / distance < 0 :=
      div_neg_of_neg_of_pos (by linarith) hd
    have hlt : Int.floor ((bound - mx) / distance) < 0 :=
      Int.floor_lt.mpr (by exact_mod_cast hneg)
    have hf : (Int.floor ((bound - mx) / distance) + 1).toNat = 0 := by omega
    rw [hf]
    simp only [overscrollLoopGo, if_neg h]

/-- Evaluation of `index2val` at an in-range index `n + t` with integer
part `n` and fractional part `t ∈ [0, 1)`. -/
theorem index2val_of_floor (P : List ℚ) (n : ℕ) (t : ℚ) (hn : n < P.length)
    (ht0 : 0 ≤ t) (ht1 : t < 1) (hle : (n : ℚ) + t ≤ (P.length : ℚ) - 1) :
    index2val (some P) ((n : ℚ) + t) =
      P.getD n 0 +
        (if t ≠ 0 then t * (P.getD (n + 1) 0 - P.getD n 0) else 0) := by
  simp only [index2val]
  have hcast : (((P.length : ℤ) - 1 : ℤ) : ℚ) = (P.length : ℚ) - 1 := by
    push_cast
    ring
  have hn0 : (0 : ℚ) ≤ (n : ℚ) := Nat.cast_nonneg n
  rw [if_neg (by linarith)]
  rw [if_neg (by rw [gt_iff_lt, hcast]; linarith)]
  have hfl : Int.floor ((n : ℚ) + t) = (n : ℤ) := by
    rw [Int.floor_eq_iff]
    constructor
    · push_cast
      linarith
    · push_cast
      linarith
  rw [hfl]
  simp only [Int.toNat_natCast]
  rw [if_pos hn]
  have hdist : (n : ℚ) + t - ((n : ℤ) : ℚ) = t := by
    push_cast
    ring
  rw [hdist]

/-- Closed form of the overscroll loop for a positive distance: from a
running value `mx` it produces `mx + d, mx + 2d, ...`, one entry per loop
iteration, `⌊(bound - mx)/d⌋ + 1` of them when `mx ≤ bound` and none
otherwise. -/
theorem overscrollLoop_closed (bound d : ℚ) (hd : 0 < d) :
    ∀ k (mx : ℚ), (Int.floor ((bound - mx) / d) + 1).toNat ≤ k →
      overscrollLoop bound d mx =
        (List.range (if mx ≤ bound then
            (Int.floor ((bound - mx) / d)).toNat + 1 else 0)).map
          (fun (j : ℕ) => mx + ((j : ℚ) + 1) * d) := by
  intro k
  induction k with
  | zero =>
    intro mx hk
    have hnot : ¬mx ≤ bound := by
      intro h
      have h0 : (0 : ℚ) ≤ (bound - mx) / d := div_nonneg (by linarith) hd.le
      have := Int.floor_nonneg.mpr h0
      omega
    rw [overscrollLoop_step bound d hd mx, if_neg hnot, if_neg hnot]
    simp
  | succ n ih =>
    intro mx hk
    by_cases h : mx ≤ bound
    · rw [overscrollLoop_step bound d hd mx, if_pos h, if_pos h]
      have hstep : (bound - (mx + d)) / d = (bound - mx) / d - 1 := by
        field_simp
        ring
      have hfl : Int.floor ((bound - (mx + d)) / d) =
          Int.floor ((bound - mx) / d) - 1 := by
        rw [hstep, Int.floor_sub_one]
      have h0 : (0 : ℚ) ≤ (bound - mx) / d := div_nonneg (by linarith) hd.le
      have hge := Int.floor_nonneg.mpr h0
      rw [ih (mx + d) (by omega)]
      by_cases h2 : mx + d ≤ bound
      · rw [if_pos h2]
        have ht1 : (1 : ℚ) ≤ (bound - mx) / d := by
          rw [le_div_iff₀ hd]
          linarith
        have hge1 : 1 ≤ Int.floor ((bound - mx) / d) :=
          Int.le_floor.mpr (by exact_mod_cast ht1)
        rw [hfl]
        rw [show (Int.floor ((bound - mx) / d) - 1).toNat + 1 =
          (Int.floor ((bound - mx) / d)).toNat from by omega]
        rw [show (Int.floor ((bound - mx) / d)).toNat + 1 =
          (Int.floor ((bound - mx) / d)).toNat + 1 from rfl]
        rw [List.range_succ_eq_map, List.map_cons, List.map_map]
        congr 1
        · push_cast
          ring
        · apply List.map_congr_left
          intro j hj
          simp only [Function.comp_apply]
          push_cast
          ring
      · rw [if_neg h2]
        have ht1 : (bound - mx) / d < 1 := by
          rw [div_lt_one hd]
          linarith
        have hfl0 : Int.floor ((bound - mx) / d) = 0 := by
          rw [Int.floor_eq_zero_iff]
          exact ⟨h0, ht1⟩
        rw [hfl0]
        simp [List.range_succ]
    · rw [overscrollLoop_step bound d hd mx, if_neg h, if_neg h]
      simp

/-! ## Claims -/

/-- C1: for a strictly ascending visible positions array `P`, `val2lin`
with `toIndex` maps a member of `P` to its exact integer index, and a value
strictly between `P[i]` and `P[i+1]` to the fractional index
`i + (v - P[i]) / (P[i+1] - P[i])`, which lies strictly between `i` and
`i + 1` — for any slope, offset and extended position cache. -/
theorem val2lin_visible_exact_and_between (P : List ℚ)
    (hP : P.Pairwise (· < ·)) (slope offset : Option ℚ) (extended : List ℚ) :
    (∀ v ∈ P, val2lin (some P) slope offset extended v true = (P.indexOf v : ℚ)) ∧
    (∀ (i : ℕ) (v : ℚ), i + 1 < P.length → P.getD i 0 < v →
      v < P.getD (i + 1) 0 →
      val2lin (some P) slope offset extended v true =
        (i : ℚ) + (v - P.getD i 0) / (P.getD (i + 1) 0 - P.getD i 0) ∧
      (i : ℚ) < val2lin (some P) slope offset extended v true ∧
      val2lin (some P) slope offset extended v true < (i : ℚ) + 1) := by
  constructor
  · intro v hv
    have hlen : 0 < P.length := List.length_pos.mpr (List.ne_nil_of_mem hv)
    have hi0 : P.indexOf v < P.length := List.indexOf_lt_length.mpr hv
    have hval : P.getD (P.indexOf v) 0 = v := by
      rw [P.getD_eq_getElem 0 hi0]
      exact List.getElem_indexOf hi0
    have h2 : P.getD 0 0 ≤ v := by
      rw [← hval]
      exact getD_le_getD P hP (Nat.zero_le _) hi0
    have h3 : P.getD (P.length - 1) 0 ≥ v := by
      rw [← hval]
      exact getD_le_getD P hP (by omega) (by omega)
    rw [val2lin_inside_eq P slope offset extended v hlen h2 h3]
    exact getIndexInArray_mem P v hP hv
  · intro i v hi hlow hhigh
    have hlen : 0 < P.length := by omega
    have h2 : P.getD 0 0 ≤ v :=
      le_of_lt (lt_of_le_of_lt (getD_le_getD P hP (Nat.zero_le i) (by omega)) hlow)
    have h3 : P.getD (P.length - 1) 0 ≥ v :=
      le_of_lt (lt_of_lt_of_le hhigh (getD_le_getD P hP (by omega) (by omega)))
    rw [val2lin_inside_eq P slope offset extended v hlen h2 h3]
    obtain ⟨-, hval⟩ := getIndexInArray_between P v i hP hi hlow hhigh
    have hd : 0 < P.getD (i + 1) 0 - P.getD i 0 :=
      sub_pos.mpr (getD_lt_getD P hP (lt_add_one i) hi)
    have ht0 : 0 < (v - P.getD i 0) / (P.getD (i + 1) 0 - P.getD i 0) :=
      div_pos (by linarith) hd
    have ht1 : (v - P.getD i 0) / (P.getD (i + 1) 0 - P.getD i 0) < 1 :=
      (div_lt_one hd).mpr (by linarith)
    rw [hval]
    exact ⟨rfl, by linarith, by linarith⟩

/-- Witness for C1 on `P = [0, 5, 6]`: the member `5` maps to index `1`,
and `11/2`, strictly between `P[1] = 5` and `P[2] = 6`, maps to the
interpolated fractional index. -/
theorem val2lin_visible_exact_and_between_witness :
    val2lin (some [0, 5, 6]) none none [] 5 true =
      ((([0, 5, 6] : List ℚ).indexOf 5 : ℕ) : ℚ) ∧
    val2lin (some [0, 5, 6]) none none [] (11 / 2) true =
      (1 : ℚ) + ((11 / 2) - ([0, 5, 6] : List ℚ).getD 1 0) /
        (([0, 5, 6] : List ℚ).getD 2 0 - ([0, 5, 6] : List ℚ).getD 1 0) :=
  ⟨(val2lin_visible_exact_and_between [0, 5, 6] (by norm_num) none none []).1
      5 (by norm_num),
    ((val2lin_visible_exact_and_between [0, 5, 6] (by norm_num) none none []).2
      1 (11 / 2) (by norm_num) (by norm_num) (by norm_num)).1⟩

/-- C2: round trip — for a strictly ascending visible positions array of
at least two elements and any value within its range,
`index2val (val2lin v true)` recovers `v` exactly (exact arithmetic). -/
theorem index2val_val2lin_roundTrip (P : List ℚ) (hP : P.Pairwise (· < ·))
    (hlen2 : 2 ≤ P.length) (slope offset : Option ℚ) (extended : List ℚ)
    (v : ℚ) (hlo : P.getD 0 0 ≤ v) (hhi : v ≤ P.getD (P.length - 1) 0) :
    index2val (some P) (val2lin (some P) slope offset extended v true) = v := by
  rw [val2lin_inside_eq P slope offset extended v (by omega) hlo hhi]
  have hne : P ≠ [] := by
    intro h
    rw [h] at hlen2
    simp at hlen2
  obtain ⟨hr0, hrlen, hrle, hrgr⟩ := findIndexOf_indirect P v hP hne hlo
  by_cases hexact : P.getD (findIndexOf P v true).toNat 0 = v
  · have hg : getIndexInArray P v = ((findIndexOf P v true).toNat : ℚ) := by
      unfold getIndexInArray
      rw [if_pos hexact]
    rw [hg]
    have happ := index2val_of_floor P (findIndexOf P v true).toNat 0 hrlen
      (le_refl 0) (by norm_num)
      (by
        have : (findIndexOf P v true).toNat + 1 ≤ P.length := hrlen
        have hcast : ((findIndexOf P v true).toNat : ℚ) + 1 ≤ (P.length : ℚ) := by
          exact_mod_cast this
        linarith)
    rw [add_zero] at happ
    rw [happ]
    simp only [ne_eq, not_true_eq_false, if_neg, ite_false]
    simpa using hexact
  · have hlt : P.getD (findIndexOf P v true).toNat 0 < v :=
      lt_of_le_of_ne hrle hexact
    have hrtop : (findIndexOf P v true).toNat ≠ P.length - 1 := by
      intro h
      rw [h] at hlt
      linarith
    have hr1 : (findIndexOf P v true).toNat + 1 < P.length := by omega
    have hhigh : v < P.getD ((findIndexOf P v true).toNat + 1) 0 := by
      by_contra hcon
      have := hrgr ((findIndexOf P v true).toNat + 1) hr1 (not_lt.mp hcon)
      omega
    obtain ⟨-, hval⟩ :=
      getIndexInArray_between P v (findIndexOf P v true).toNat hP hr1 hlt hhigh
    rw [hval]
    have hd : 0 < P.getD ((findIndexOf P v true).toNat + 1) 0 -
        P.getD (findIndexOf P v true).toNat 0 :=
      sub_pos.mpr (getD_lt_getD P hP (lt_add_one _) hr1)
    set a := P.getD (findIndexOf P v true).toNat 0 with ha
    set b := P.getD ((findIndexOf P v true).toNat + 1) 0 with hb
    have ht0 : 0 < (v - a) / (b - a) := div_pos (by linarith) hd
    have ht1 : (v - a) / (b - a) < 1 := (div_lt_one hd).mpr (by linarith)
    have happ := index2val_of_floor P (findIndexOf P v true).toNat
      ((v - a) / (b - a)) hrlen (le_of_lt ht0) ht1
      (by
        have : (findIndexOf P v true).toNat + 2 ≤ P.length := hr1
        have hcast : ((findIndexOf P v true).toNat : ℚ) + 2 ≤ (P.length : ℚ) := by
          exact_mod_cast this
        linarith)
    rw [happ, if_pos (ne_of_gt ht0), ← ha, ← hb,
      div_mul_cancel₀ _ (ne_of_gt hd)]
    ring

/-- Witness for C2 on `P = [0, 5, 6]` with `v = 11/2` inside the range. -/
theorem index2val_val2lin_roundTrip_witness :
    index2val (some [0, 5, 6])
        (val2lin (some [0, 5, 6]) none none [] (11 / 2) true) = 11 / 2 :=
  index2val_val2lin_roundTrip [0, 5, 6] (by norm_num) (by norm_num) none none
    [] (11 / 2) (by norm_num) (by norm_num)

/-- C3 counterexample: on the strictly ascending array `[1, 3, 5, 7, 9]`
with key `0`, the indirect search returns index `0`, yet no index at all
has its element `≤ 0` — so the result is not "the greatest index `i` such
that `A[i] ≤ k`", which does not exist for this key. -/
theorem findIndexOf_greatest_counterexample :
    findIndexOf [1, 3, 5, 7, 9] 0 true = 0 ∧
    (∀ i : ℕ, i < 5 → ¬(([1, 3, 5, 7, 9] : List ℚ).getD i 0 ≤ 0)) :=
  ⟨rfl, by decide⟩

/-- C3 (amended): for a strictly ascending nonempty array whose first
element is `≤ key` — that is, when an index with `A[i] ≤ key` exists at
all — the indirect search returns the greatest such index; and for any
key that has no exact match, the direct search returns `-1`. -/
theorem findIndexOf_contract (A : List ℚ) (k : ℚ) (hA : A.Pairwise (· < ·))
    (hne : A ≠ []) :
    (A.getD 0 0 ≤ k →
      (findIndexOf A k true).toNat < A.length ∧
      A.getD (findIndexOf A k true).toNat 0 ≤ k ∧
      (∀ j : ℕ, j < A.length → A.getD j 0 ≤ k →
        (j : ℤ) ≤ findIndexOf A k true)) ∧
    (k ∉ A → findIndexOf A k false = -1) := by
  constructor
  · intro h0
    obtain ⟨-, h1, h2, h3⟩ := findIndexOf_indirect A k hA hne h0
    exact ⟨h1, h2, h3⟩
  · exact findIndexOf_direct_notMem A k

/-- Witness for C3 (amended) on `[1, 3, 5, 7, 9]` with key `6`: `5` at
index `2` is the greatest element `≤ 6`, and `6`, absent from the array,
yields `-1` in direct mode. -/
theorem findIndexOf_contract_witness :
    ((findIndexOf [1, 3, 5, 7, 9] 6 true).toNat <
        ([1, 3, 5, 7, 9] : List ℚ).length ∧
      ([1, 3, 5, 7, 9] : List ℚ).getD (findIndexOf [1, 3, 5, 7, 9] 6 true).toNat
          0 ≤ 6 ∧
      (∀ j : ℕ, j < ([1, 3, 5, 7, 9] : List ℚ).length →
        ([1, 3, 5, 7, 9] : List ℚ).getD j 0 ≤ 6 →
        (j : ℤ) ≤ findIndexOf [1, 3, 5, 7, 9] 6 true)) ∧
    findIndexOf [1, 3, 5, 7, 9] 6 false = -1 :=
  ⟨(findIndexOf_contract [1, 3, 5, 7, 9] 6 (by decide) (by decide)).1
      (by norm_num),
    (findIndexOf_contract [1, 3, 5, 7, 9] 6 (by decide) (by decide)).2
      (by decide)⟩

/-- C4 counterexample: `findIndexOf([1,3,5,7,9], 6, true)` returns `2`
(the index of `5`), not `1` as the claim states. -/
theorem findIndexOf_six_counterexample :
    findIndexOf [1, 3, 5, 7, 9] 6 true = 2 ∧ (2 : ℤ) ≠ 1 :=
  ⟨rfl, by decide⟩

/-- C4 (amended): on `[1, 3, 5, 7, 9]` with key `6`, `findIndexOf` returns
index `2` (the index of `5`, the greatest element `≤ 6`) in indirect mode,
and `-1` in direct mode. -/
theorem findIndexOf_six :
    findIndexOf [1, 3, 5, 7, 9] 6 true = 2 ∧
    findIndexOf [1, 3, 5, 7, 9] 6 false = -1 :=
  ⟨rfl, rfl⟩

/-- With every position at least `min` and at most `max`, the source's
segment scan never trips its `outsideMax` or below-`min` adjustments, so
it coincides with the pure gap split at every loop state. -/
theorem segLoopGo_eq_gapSplit (P : List ℚ) (mn mx cd : ℚ)
    (hmin : ∀ x ∈ P, mn ≤ x) (hmax : ∀ x ∈ P, x ≤ mx) :
    ∀ fuel en start, segLoopGo P mn mx cd fuel en start =
      gapSplitSegmentsGo P cd fuel en start := by
  have hmem : ∀ i, i < P.length → P.getD i 0 ∈ P := by
    intro i hi
    rw [P.getD_eq_getElem 0 hi]
    exact P.getElem_mem hi
  intro fuel
  induction fuel with
  | zero => intro en start; rfl
  | succ n ih =>
    intro en start
    by_cases hen : en < P.length
    · have houtside : ¬(en ≠ 0 ∧ P.getD (en - 1) 0 > mx) := by
        rintro ⟨hne0, hgt⟩
        exact absurd hgt (not_lt.mpr (hmax _ (hmem _ (by omega))))
      have hstart1 : ¬(P.getD en 0 < mn) := not_lt.mpr (hmin _ (hmem _ hen))
      simp only [segLoopGo, gapSplitSegmentsGo, if_pos hen, if_neg hstart1]
      by_cases hbound : en = P.length - 1 ∨
          P.getD (en + 1) 0 - P.getD en 0 > cd * 5
      · rw [if_pos (by tauto), if_pos hbound, if_neg houtside, ih]
      · rw [if_neg (by tauto), if_neg hbound, ih]
    · simp only [segLoopGo, gapSplitSegmentsGo, if_neg hen]

/-- C5: with `min` and `max` covering all positions, `getTimeTicks`'s scan
splits the positions exactly at the gaps exceeding five times the closest
distance; in particular `[1, 2, 3, 10, 11, 12]` with closest distance `1`
yields exactly the two segments `[1, 2, 3]` (indices 0-2) and
`[10, 11, 12]` (indices 3-5), the boundary falling between indices 2
and 3. -/
theorem getTimeTicks_segments (P : List ℚ) (mn mx cd : ℚ)
    (hmin : ∀ x ∈ P, mn ≤ x) (hmax : ∀ x ∈ P, x ≤ mx) :
    segLoop P mn mx cd 0 0 = gapSplitSegments P cd 0 0 ∧
    segLoop [1, 2, 3, 10, 11, 12] 1 12 1 0 0 = [(0, 2), (3, 5)] := by
  constructor
  · unfold segLoop gapSplitSegments
    exact segLoopGo_eq_gapSplit P mn mx cd hmin hmax _ 0 0
  · norm_num [segLoop, segLoopGo]

/-- Witness for C5 on positions `[1, 2, 3, 10, 11, 12]`, `min = 1`,
`max = 12`, closest distance `1`. -/
theorem getTimeTicks_segments_witness :
    segLoop [1, 2, 3, 10, 11, 12] 1 12 1 0 0 =
      gapSplitSegments [1, 2, 3, 10, 11, 12] 1 0 0 ∧
    segLoop [1, 2, 3, 10, 11, 12] 1 12 1 0 0 = [(0, 2), (3, 5)] :=
  ⟨(getTimeTicks_segments [1, 2, 3, 10, 11, 12] 1 12 1 (by norm_num)
      (by norm_num)).1,
    (getTimeTicks_segments [1, 2, 3, 10, 11, 12] 1 12 1 (by norm_num)
      (by norm_num)).2⟩

/-- C6: `convertOverscroll` resolves a number to itself; a percentage
string to `(N/100)` times the cached original ordinal range, or times
`dataMax - dataMin` when no range is cached; and a pixel string by
clamping to 90% of the axis length, setting `p = clamped/length`, and
feeding `p / (1 - p)` to the percentage formula.  In particular, with
`dataMin = 0`, `dataMax = 100` and no cached range, `"10%"` resolves to
`10` and `"50px"` with axis length `500` to `100 * (0.1 / 0.9)`. -/
theorem convertOverscroll_resolution :
    (∀ (oor dMin dMax : Option ℚ) (len x : ℚ),
      convertOverscroll oor dMin dMax len (.num x) = x) ∧
    (∀ (r : ℚ) (dMin dMax : Option ℚ) (len : ℚ) (n : ℤ),
      convertOverscroll (some r) dMin dMax len (.pct n) = r * ((n : ℚ) / 100)) ∧
    (∀ (m M len : ℚ) (n : ℤ),
      convertOverscroll none (some m) (some M) len (.pct n) =
        (M - m) * ((n : ℚ) / 100)) ∧
    (∀ (oor dMin dMax : Option ℚ) (len : ℚ) (n : ℤ),
      convertOverscroll oor dMin dMax len (.px n) =
        calculateOverscroll oor dMin dMax
          ((min (n : ℚ) (len * (9 / 10)) / len) /
            (1 - min (n : ℚ) (len * (9 / 10)) / len))) ∧
    convertOverscroll none (some 0) (some 100) 500 (.pct 10) = 10 ∧
    convertOverscroll none (some 0) (some 100) 500 (.px 50) =
      100 * ((1 / 10) / (9 / 10)) := by
  refine ⟨fun _ _ _ _ _ => rfl, fun _ _ _ _ _ => rfl, fun _ _ _ _ => rfl,
    fun _ _ _ _ _ => rfl, ?_, ?_⟩
  · norm_num [convertOverscroll, calculateOverscroll]
  · norm_num [convertOverscroll, calculateOverscroll]

/-- C7 counterexample: a pan with `movedUnits > 0` whose trimmed range
maximum exceeds `dataMax + overscroll` is not always a no-op — with a
panning type containing `y` (type `"xy"`, which passes the handler's
`type !== 'y'` entry check) and a nonzero overscroll, the closing block
still resets the axis maximum to `dataMax + overscroll`, changing the
extremes. -/
theorem onChartPan_rejection_counterexample :
    (2 : ℤ) > 0 ∧ (20 : ℚ) > 10 + 1 ∧
    onChartPanOrdinal ⟨0, 1, -10, 10⟩ 1 2 true true 0 20 ≠ (0, 1) := by
  refine ⟨by norm_num, by norm_num, ?_⟩
  norm_num [onChartPanOrdinal, Prod.ext_iff]

/-- C7 (amended): within the ordinal pan branch, a pan with
`min = dataMin` and negative `movedUnits` leaves the extremes unchanged
(the early-return guard fires before any mutation); and a pan with
positive `movedUnits` whose would-be maximum (the trimmed range maximum)
exceeds `dataMax + overscroll` leaves the extremes unchanged provided the
overscroll is nonnegative, the extended ordinal positions are available,
and the panning type has no `y` component — otherwise the linear-pan
fallback or the closing block may reset the maximum to
`dataMax + overscroll`. -/
theorem onChartPan_rejection (ex : PanExtremes) (overscroll : ℚ)
    (movedUnits : ℤ) (hasY hasExt : Bool) (tmin tmax : ℚ) :
    (ex.min = ex.dataMin → movedUnits < 0 →
      onChartPanOrdinal ex overscroll movedUnits hasY hasExt tmin tmax =
        (ex.min, ex.max)) ∧
    (0 ≤ overscroll → 0 < movedUnits → hasExt = true → hasY = false →
      ex.dataMax + overscroll < tmax →
      onChartPanOrdinal ex overscroll movedUnits hasY hasExt tmin tmax =
        (ex.min, ex.max)) := by
  constructor
  · intro hmin hmu
    unfold onChartPanOrdinal
    rw [if_pos (Or.inl ⟨le_of_eq hmin, hmu⟩)]
  · intro hover hmu hExt hY htmax
    subst hExt
    subst hY
    unfold onChartPanOrdinal
    by_cases hguard : (ex.min ≤ ex.dataMin ∧ movedUnits < 0) ∨
        (ex.max + overscroll ≥ ex.dataMax ∧ movedUnits > 0)
    · rw [if_pos hguard]
    · rw [if_neg hguard]
      have hmaxlt : ex.max + overscroll < ex.dataMax := by
        rcases not_or.mp hguard with ⟨-, h2⟩
        rcases not_and_or.mp h2 with h | h
        · exact not_le.mp h
        · exact absurd hmu (by simpa using h)
      have hmaxle : ex.max ≤ ex.dataMax := by linarith
      have hreject : ¬(tmin ≥ min ex.dataMin ex.min ∧
          tmax ≤ max ex.dataMax ex.max + overscroll) := by
        rintro ⟨-, h⟩
        rw [max_eq_left hmaxle] at h
        linarith
      rw [if_neg (by simp)]
      simp only [Bool.false_eq_true, false_and, if_false]
      by_cases habs : 1 < |movedUnits|
      · rw [if_pos habs, if_neg hreject]
      · rw [if_neg habs]

/-- Witness for C7: a rejected leftward pan at the data minimum and a
rejected rightward pan past the overscrolled data maximum, both leaving
`(min, max)` untouched. -/
theorem onChartPan_rejection_witness :
    onChartPanOrdinal ⟨0, 1, 0, 10⟩ 0 (-2) false true 0 0 = (0, 1) ∧
    onChartPanOrdinal ⟨0, 1, -10, 10⟩ 1 2 false true 0 20 = (0, 1) :=
  ⟨(onChartPan_rejection ⟨0, 1, 0, 10⟩ 0 (-2) false true 0 0).1 rfl
      (by norm_num),
    (onChartPan_rejection ⟨0, 1, -10, 10⟩ 1 2 false true 0 20).2 (by norm_num)
      (by norm_num) rfl rfl (by norm_num)⟩

/-- C8: identity fallback of `val2lin` — outside the visible bounds,
when the value also falls outside a nonempty extended position set and no
index is requested, the raw value is returned unchanged; and outside the
visible bounds with an empty or unavailable extended cache, the raw value
is returned unchanged for either `toIndex`. -/
theorem val2lin_identity_fallback (P : List ℚ) (slope offset : Option ℚ)
    (v : ℚ) :
    (∀ extended : List ℚ, extended ≠ [] →
      ¬(0 < P.length ∧ P.getD 0 0 ≤ v ∧ P.getD (P.length - 1) 0 ≥ v) →
      ¬(extended.getD 0 0 ≤ v ∧
        v ≤ extended.getD (extended.length - 1) 0) →
      val2lin (some P) slope offset extended v false = v) ∧
    (∀ toIndex : Bool,
      ¬(0 < P.length ∧ P.getD 0 0 ≤ v ∧ P.getD (P.length - 1) 0 ≥ v) →
      val2lin (some P) slope offset [] v toIndex = v) := by
  constructor
  · intro extended hne hvis hext
    simp only [val2lin]
    rw [if_neg hvis]
    have hlen : extended.length ≠ 0 := fun h => hne (List.length_eq_zero.mp h)
    rw [if_neg hlen]
    rw [if_neg hext]
    rfl
  · intro toIndex hvis
    simp only [val2lin]
    rw [if_neg hvis]
    rfl

/-- Witness for C8 with visible positions `[1, 3]`, extended positions
`[0, 1, 3, 5]` and the value `10`, outside both ranges. -/
theorem val2lin_identity_fallback_witness :
    val2lin (some [1, 3]) none none [0, 1, 3, 5] 10 false = 10 ∧
    val2lin (some [1, 3]) none none [] 10 true = 10 :=
  ⟨(val2lin_identity_fallback [1, 3] none none 10).1 [0, 1, 3, 5]
      (by simp) (by norm_num) (by norm_num),
    (val2lin_identity_fallback [1, 3] none none 10).2 true (by norm_num)⟩

/-- C9: for a strictly ascending nonempty array and a key strictly below
its first element, the indirect search still returns index `0` — no
element is `≤ key` there — while the direct search returns `-1`. -/
theorem findIndexOf_left_edge (A : List ℚ) (k : ℚ) (hA : A.Pairwise (· < ·))
    (hne : A ≠ []) (hk : k < A.getD 0 0) :
    findIndexOf A k true = 0 ∧ findIndexOf A k false = -1 :=
  findIndexOf_below A k hA hne hk

/-- Witness for C9 on `[1, 3, 5, 7, 9]` with key `0 < 1`. -/
theorem findIndexOf_left_edge_witness :
    findIndexOf [1, 3, 5, 7, 9] 0 true = 0 ∧
    findIndexOf [1, 3, 5, 7, 9] 0 false = -1 :=
  findIndexOf_left_edge [1, 3, 5, 7, 9] 0 (by decide) (by decide) (by norm_num)

/-- C10: with a positive `overscrollPointsRange` `d` and nonnegative
overscroll, `getOverscrollPositions` returns exactly
`dataMax + d, dataMax + 2d, ...` — each strictly greater than `dataMax`,
consecutive values `d` apart — and the last value strictly exceeds
`dataMax + overscroll`, by at most `d`: generation stops only after a
position past `dataMax + overscroll` has been appended. -/
theorem getOverscrollPositions_spec (dataMax o d : ℚ) (hd : 0 < d)
    (ho : 0 ≤ o) :
    getOverscrollPositions dataMax o (some d) ≠ [] ∧
    (getOverscrollPositions dataMax o (some d)).length =
      (Int.floor (o / d)).toNat + 1 ∧
    (∀ i, i < (getOverscrollPositions dataMax o (some d)).length →
      (getOverscrollPositions dataMax o (some d)).getD i 0 =
        dataMax + ((i : ℚ) + 1) * d) ∧
    (∀ x ∈ getOverscrollPositions dataMax o (some d), dataMax < x) ∧
    dataMax + o <
      (getOverscrollPositions dataMax o (some d)).getD
        ((getOverscrollPositions dataMax o (some d)).length - 1) 0 ∧
    (getOverscrollPositions dataMax o (some d)).getD
        ((getOverscrollPositions dataMax o (some d)).length - 1) 0 ≤
      dataMax + o + d := by
  have hL : getOverscrollPositions dataMax o (some d) =
      (List.range ((Int.floor (o / d)).toNat + 1)).map
        (fun (j : ℕ) => dataMax + ((j : ℚ) + 1) * d) := by
    simp only [getOverscrollPositions]
    rw [if_pos hd]
    rw [overscrollLoop_closed (dataMax + o) d hd
      ((Int.floor ((dataMax + o - dataMax) / d) + 1).toNat) dataMax
      (le_refl _)]
    rw [if_pos (by linarith)]
    have hsub : dataMax + o - dataMax = o := by ring
    rw [hsub]
  have hlen : (getOverscrollPositions dataMax o (some d)).length =
      (Int.floor (o / d)).toNat + 1 := by
    rw [hL]
    simp
  have hget : ∀ i, i < (getOverscrollPositions dataMax o (some d)).length →
      (getOverscrollPositions dataMax o (some d)).getD i 0 =
        dataMax + ((i : ℚ) + 1) * d := by
    intro i hi
    rw [hL] at hi ⊢
    rw [List.getD_eq_getElem _ 0 hi]
    simp only [List.getElem_map, List.getElem_range]
  have hfl0 : (0 : ℤ) ≤ Int.floor (o / d) :=
    Int.floor_nonneg.mpr (div_nonneg ho hd.le)
  have hcast : ((Int.floor (o / d)).toNat : ℚ) = ((Int.floor (o / d) : ℤ) : ℚ) := by
    exact_mod_cast congrArg (fun z : ℤ => (z : ℚ)) (Int.toNat_of_nonneg hfl0)
  refine ⟨?_, hlen, hget, ?_, ?_, ?_⟩
  · rw [hL]
    simp
  · intro x hx
    rw [hL] at hx
    obtain ⟨j, hj, rfl⟩ := List.mem_map.mp hx
    have : (0 : ℚ) < ((j : ℚ) + 1) * d := by
      have : (0 : ℚ) ≤ (j : ℚ) := Nat.cast_nonneg j
      nlinarith
    linarith
  · rw [hget _ (by omega), hlen]
    simp only [Nat.add_sub_cancel]
    rw [hcast]
    have := Int.lt_floor_add_one (o / d)
    have hlt : o / d < ((Int.floor (o / d) : ℤ) : ℚ) + 1 := by
      exact_mod_cast this
    have := (div_lt_iff₀ hd).mp hlt
    linarith
  · rw [hget _ (by omega), hlen]
    simp only [Nat.add_sub_cancel]
    rw [hcast]
    have := Int.floor_le (o / d)
    have hle : ((Int.floor (o / d) : ℤ) : ℚ) ≤ o / d := by
      exact_mod_cast this
    have := (le_div_iff₀ hd).mp hle
    linarith

/-- Witness for C10 with `dataMax = 0`, overscroll `5`, distance `2`:
the positions are `[2, 4, 6]`, the last exceeding `0 + 5` by `1 ≤ 2`. -/
theorem getOverscrollPositions_spec_witness :
    getOverscrollPositions 0 5 (some 2) ≠ [] ∧
    (getOverscrollPositions 0 5 (some 2)).length =
      (Int.floor ((5 : ℚ) / 2)).toNat + 1 ∧
    (∀ i, i < (getOverscrollPositions 0 5 (some 2)).length →
      (getOverscrollPositions 0 5 (some 2)).getD i 0 =
        0 + ((i : ℚ) + 1) * 2) ∧
    (∀ x ∈ getOverscrollPositions 0 5 (some 2), (0 : ℚ) < x) ∧
    (0 : ℚ) + 5 <
      (getOverscrollPositions 0 5 (some 2)).getD
        ((getOverscrollPositions 0 5 (some 2)).length - 1) 0 ∧
    (getOverscrollPositions 0 5 (some 2)).getD
        ((getOverscrollPositions 0 5 (some 2)).length - 1) 0 ≤
      (0 : ℚ) + 5 + 2 :=
  getOverscrollPositions_spec 0 5 2 (by norm_num) (by norm_num)

end OrdinalAxis
